import Mathlib

/-!
Verification of the RaidersWatch.gg reputation & aggregation engine
(src/server.js) against its natural-language specification.

Shallow embedding conventions:
* JS timestamps are modelled as milliseconds since the Unix epoch (`Int`).
  `new Date(x) - new Date(y)` is exact integer millisecond arithmetic in JS.
  A `created_at` value that does not parse (an "Invalid Date", i.e. NaN)
  is modelled as `none : Option Int`.
* JS floating-point report weights (1.0 / 0.5 / 0.2) and scores are modelled
  exactly in `ℚ`; the spec itself mandates full-precision comparison.
* JS strings are modelled as `String` / `List Char`.
* `Math.floor` of a real division by a positive constant is `Int.fdiv`.
-/

/-- Milliseconds per UTC calendar day (`1000 * 60 * 60 * 24` in server.js). -/
def MS_PER_DAY : Int := 86400000

/-! ## Reputation scorer — `calculateReputationTier` (src/server.js:60-90) -/

/-- A row fed to the reputation scorer: only `created_at` is consulted.
`none` models a malformed timestamp (JS `new Date(bad)` = NaN). -/
structure RepReport where
  created_at : Option Int
deriving DecidableEq, Repr

/-- The five reputation tiers of server.js. -/
inductive Tier
  | Friendly
  | Neutral
  | Suspicious
  | Hostile
  | KOS
deriving DecidableEq, Repr

/-- `getAgeDays` (server.js:64-66): `Math.floor((now - new Date(date)) / MS_PER_DAY)`.
A NaN date propagates to a NaN age, modelled as `none`. -/
def getAgeDays (nowMs : Int) (t : Option Int) : Option Int :=
  t.map (fun ms => (nowMs - ms).fdiv MS_PER_DAY)

/-- `weight` (server.js:68-72).  For a NaN age both JS comparisons
`ageDays <= 7` and `ageDays <= 30` evaluate to `false`, so the function
falls through to the `0.2` ("old report") branch. -/
def weight : Option Int → ℚ
  | some ageDays => if ageDays ≤ 7 then 1 else if ageDays ≤ 30 then 1/2 else 1/5
  | none => 1/5

/-- The score accumulation loop (server.js:62, 74-77). -/
def repScore (nowMs : Int) (reports : List RepReport) : ℚ :=
  reports.foldl (fun s r => s + weight (getAgeDays nowMs r.created_at)) 0

/-- The tier assignment chain (server.js:79-83): `Friendly` is the default,
then an if / else-if cascade on the full-precision score. -/
def tierOf (score : ℚ) : Tier :=
  if 0 < score ∧ score ≤ 3/2 then .Neutral
  else if 3/2 < score ∧ score ≤ 3 then .Suspicious
  else if 3 < score ∧ score ≤ 5 then .Hostile
  else if 5 < score then .KOS
  else .Friendly

/-- `Number(score.toFixed(2))` (server.js:87): round to 2 decimal places,
ties away from zero upwards (the ECMAScript `toFixed` rule picks the larger
candidate on a tie). -/
def roundTo2 (q : ℚ) : ℚ := ((⌊q * 100 + 1/2⌋ : ℤ) : ℚ) / 100

/-- The record returned by `calculateReputationTier` (server.js:85-89). -/
structure RepSummary where
  tier : Tier
  score : ℚ
  totalReports : Nat
deriving DecidableEq, Repr

/-- `calculateReputationTier` (server.js:60-90). -/
def calculateReputationTier (nowMs : Int) (reports : List RepReport) : RepSummary :=
  let score := repScore nowMs reports
  { tier := tierOf score
    score := roundTo2 score
    totalReports := reports.length }

/-! Spec-side mirror of §4.2, written from the specification's words, to be
compared with the source translation above. -/

/-- Modelled from the spec (§4.2): decay weight on a whole-day age:
`age ≤ 7 → 1.0; 8 ≤ age ≤ 30 → 0.5; age > 30 → 0.2`. -/
def specWeight (ageDays : Int) : ℚ :=
  if ageDays ≤ 7 then 1 else if 8 ≤ ageDays ∧ ageDays ≤ 30 then 1/2 else 1/5

/-- Modelled from the spec (§4.2): score is the sum of decay weights over the
reports, a malformed timestamp "treated as age = 0". -/
def specScore (nowMs : Int) (reports : List RepReport) : ℚ :=
  (reports.map (fun r =>
    specWeight ((nowMs - r.created_at.getD nowMs).fdiv MS_PER_DAY))).sum

/-- Modelled from the spec (§4.2): tier thresholds as non-overlapping
intervals: `score == 0 → Friendly; 0 < score ≤ 1.5 → Neutral;
1.5 < score ≤ 3 → Suspicious; 3 < score ≤ 5 → Hostile; score > 5 → KOS`. -/
def specTier (score : ℚ) : Tier :=
  if score = 0 then .Friendly
  else if 0 < score ∧ score ≤ 3/2 then .Neutral
  else if 3/2 < score ∧ score ≤ 3 then .Suspicious
  else if 3 < score ∧ score ≤ 5 then .Hostile
  else if 5 < score then .KOS
  else .Friendly

/-! Basic lemmas about the scorer. -/

theorem repScore_foldl_shift (nowMs : Int) (reports : List RepReport) (a : ℚ) :
    reports.foldl (fun s r => s + weight (getAgeDays nowMs r.created_at)) a
      = a + repScore nowMs reports := by
  induction reports generalizing a with
  | nil => simp [repScore]
  | cons r rs ih =>
      simp only [repScore, List.foldl_cons] at *
      rw [ih, ih (0 + weight (getAgeDays nowMs r.created_at))]
      ring

theorem repScore_nil (nowMs : Int) : repScore nowMs [] = 0 := rfl

theorem repScore_cons (nowMs : Int) (r : RepReport) (rs : List RepReport) :
    repScore nowMs (r :: rs)
      = weight (getAgeDays nowMs r.created_at) + repScore nowMs rs := by
  simp only [repScore, List.foldl_cons]
  rw [repScore_foldl_shift]
  rw [zero_add]
  rfl

theorem repScore_eq_sum (nowMs : Int) (reports : List RepReport) :
    repScore nowMs reports
      = (reports.map (fun r => weight (getAgeDays nowMs r.created_at))).sum := by
  induction reports with
  | nil => rfl
  | cons r rs ih => rw [repScore_cons, List.map_cons, List.sum_cons, ih]

theorem weight_pos (o : Option Int) : 0 < weight o := by
  cases o with
  | none => norm_num [weight]
  | some a =>
      simp only [weight]
      split <;> norm_num
      split <;> norm_num

theorem weight_eq_specWeight (a : Int) : weight (some a) = specWeight a := by
  simp only [weight, specWeight]
  by_cases h7 : a ≤ 7
  · rw [if_pos h7, if_pos h7]
  · rw [if_neg h7, if_neg h7]
    by_cases h30 : a ≤ 30
    · rw [if_pos h30, if_pos ⟨by omega, h30⟩]
    · rw [if_neg h30, if_neg (by omega)]

theorem tierOf_eq_specTier (s : ℚ) : tierOf s = specTier s := by
  unfold tierOf specTier
  by_cases h0 : s = 0
  · subst h0; norm_num
  · simp only [h0, if_false]

theorem roundTo2_tenths (n : ℤ) : roundTo2 ((n : ℚ) / 10) = (n : ℚ) / 10 := by
  unfold roundTo2
  have h : ((n : ℚ) / 10) * 100 + 1/2 = ((10 * n : ℤ) : ℚ) + (1 : ℚ)/2 := by
    push_cast; ring
  rw [h, Int.floor_int_add]
  have h2 : ⌊(1 : ℚ)/2⌋ = 0 := by
    rw [Int.floor_eq_zero_iff]
    constructor <;> norm_num
  rw [h2]
  push_cast
  ring

theorem repScore_eq_specScore (nowMs : Int) (rs : List RepReport)
    (h : ∀ r ∈ rs, r.created_at ≠ none) :
    repScore nowMs rs = specScore nowMs rs := by
  induction rs with
  | nil => rfl
  | cons r rs ih =>
      rw [repScore_cons]
      obtain ⟨v, hv⟩ : ∃ v, r.created_at = some v := by
        cases hr : r.created_at with
        | none => exact absurd hr (h r (List.mem_cons_self r rs))
        | some v => exact ⟨v, rfl⟩
      have ih2 := ih (fun x hx => h x (List.mem_cons_of_mem _ hx))
      simp only [specScore, List.map_cons, List.sum_cons] at ih2 ⊢
      rw [← ih2, hv]
      simp only [Option.getD_some, getAgeDays]
      have hm : Option.map (fun ms => (nowMs - ms).fdiv MS_PER_DAY) (some v)
          = some ((nowMs - v).fdiv MS_PER_DAY) := rfl
      rw [hm, weight_eq_specWeight]

/-- C1: for every identity the reputation summary computes each report's age
in whole days as `floor((now - created_at) / 1 day)`, assigns weight 1.0 for
age ≤ 7, 0.5 for 8 ≤ age ≤ 30, 0.2 for age > 30, sums the weights into the
score, and assigns the tier by the strict non-overlapping thresholds
`score == 0 → Friendly, 0 < score ≤ 1.5 → Neutral, 1.5 < score ≤ 3 →
Suspicious, 3 < score ≤ 5 → Hostile, score > 5 → KOS`; in particular reports
aged {1, 10, 40} days yield score 1.70 and tier Suspicious, and zero
non-comment reports yield score 0.00 and tier Friendly. -/
theorem c1_reputation_score_and_tier :
    (∀ (nowMs : Int) (rs : List RepReport), (∀ r ∈ rs, r.created_at ≠ none) →
      calculateReputationTier nowMs rs
        = { tier := specTier (specScore nowMs rs)
            score := roundTo2 (specScore nowMs rs)
            totalReports := rs.length }) ∧
    (calculateReputationTier (100 * MS_PER_DAY)
        [⟨some (99 * MS_PER_DAY)⟩, ⟨some (90 * MS_PER_DAY)⟩, ⟨some (60 * MS_PER_DAY)⟩]
      = { tier := .Suspicious, score := 17/10, totalReports := 3 }) ∧
    (calculateReputationTier 0 [] = { tier := .Friendly, score := 0, totalReports := 0 }) := by
  refine ⟨?_, ?_, ?_⟩
  · intro nowMs rs h
    simp only [calculateReputationTier]
    rw [repScore_eq_specScore nowMs rs h, tierOf_eq_specTier]
  · have h1 : getAgeDays (100 * MS_PER_DAY) (some (99 * MS_PER_DAY)) = some 1 := by decide
    have h2 : getAgeDays (100 * MS_PER_DAY) (some (90 * MS_PER_DAY)) = some 10 := by decide
    have h3 : getAgeDays (100 * MS_PER_DAY) (some (60 * MS_PER_DAY)) = some 40 := by decide
    have hsc : repScore (100 * MS_PER_DAY)
        [⟨some (99 * MS_PER_DAY)⟩, ⟨some (90 * MS_PER_DAY)⟩, ⟨some (60 * MS_PER_DAY)⟩]
        = 17/10 := by
      rw [repScore_cons, repScore_cons, repScore_cons, repScore_nil]
      simp only [h1, h2, h3]
      norm_num [weight]
    simp only [calculateReputationTier]
    rw [hsc]
    have hr : roundTo2 (17/10) = 17/10 := by
      have := roundTo2_tenths 17
      push_cast at this
      convert this using 2
    have ht : tierOf (17/10) = .Suspicious := by
      unfold tierOf
      norm_num
    rw [hr, ht]
    rfl
  · have hr : roundTo2 0 = 0 := by
      have := roundTo2_tenths 0
      push_cast at this
      simpa using this
    have ht : tierOf 0 = .Friendly := by
      unfold tierOf
      norm_num
    simp only [calculateReputationTier]
    rw [repScore_nil, hr, ht]
    rfl

theorem c1_witness :
    (∀ r ∈ ([⟨some 0⟩] : List RepReport), r.created_at ≠ none) ∧
    calculateReputationTier 0 [⟨some 0⟩]
      = { tier := specTier (specScore 0 [⟨some 0⟩])
          score := roundTo2 (specScore 0 [⟨some 0⟩])
          totalReports := 1 } :=
  ⟨by decide, c1_reputation_score_and_tier.1 0 [⟨some 0⟩] (by decide)⟩

/-- C4 as stated is false on the code: a report whose `created_at` does not
parse produces a NaN age, both JS comparisons `age <= 7` and `age <= 30` are
false, and the weight falls through to 0.2 (old), not 1.0 (fresh).  The
spec-modelled scorer (malformed treated as age = 0) gives 1.0 instead. -/
theorem c4_counterexample :
    repScore 0 [⟨none⟩] = 1/5 ∧ specScore 0 [⟨none⟩] = 1 ∧ (1/5 : ℚ) ≠ 1 := by
  refine ⟨?_, ?_, by norm_num⟩
  · rw [repScore_cons, repScore_nil]
    norm_num [getAgeDays, weight]
  · unfold specScore specWeight
    norm_num

/-- C4 amended: the reputation scorer is a total function with no failure
mode; a report with a malformed `created_at` timestamp does not crash the
scorer but is treated as an old report, contributing weight exactly 0.2
to the score. -/
theorem c4_amended_malformed_is_old :
    ∀ (nowMs : Int) (rs : List RepReport) (r : RepReport),
      r.created_at = none →
        repScore nowMs (r :: rs) = 1/5 + repScore nowMs rs := by
  intro nowMs rs r h
  rw [repScore_cons, h]
  rfl

theorem c4_amended_witness :
    (⟨none⟩ : RepReport).created_at = none ∧
    repScore 0 [⟨none⟩] = 1/5 + repScore 0 [] :=
  ⟨rfl, c4_amended_malformed_is_old 0 [] ⟨none⟩ rfl⟩

/-- C8: the reputation score is monotonically non-decreasing as more reports
of any age are added to a fixed report set, and is invariant under
permutation of the report list. -/
theorem c8_monotone_and_perm_invariant :
    ∀ (nowMs : Int) (rs rs2 : List RepReport) (r : RepReport),
      repScore nowMs rs ≤ repScore nowMs (rs ++ [r]) ∧
      (rs.Perm rs2 → repScore nowMs rs = repScore nowMs rs2) := by
  intro nowMs rs rs2 r
  constructor
  · rw [repScore_eq_sum, repScore_eq_sum, List.map_append, List.sum_append]
    simp only [List.map_cons, List.map_nil, List.sum_cons, List.sum_nil, add_zero]
    have := weight_pos (getAgeDays nowMs r.created_at)
    linarith
  · intro hperm
    rw [repScore_eq_sum, repScore_eq_sum]
    exact (hperm.map _).sum_eq

theorem c8_witness :
    ([⟨some 0⟩, ⟨some 1⟩] : List RepReport).Perm [⟨some 1⟩, ⟨some 0⟩] ∧
    repScore 0 [⟨some 0⟩, ⟨some 1⟩] = repScore 0 [⟨some 1⟩, ⟨some 0⟩] :=
  ⟨List.Perm.swap _ _ _,
   (c8_monotone_and_perm_invariant 0 [⟨some 0⟩, ⟨some 1⟩] [⟨some 1⟩, ⟨some 0⟩] ⟨some 0⟩).2
     (List.Perm.swap _ _ _)⟩

/-! ## Comment/vote ledger — POST /api/comments/:id/vote (src/server.js:349-419) -/

/-- A vote direction (`req.query.vote`, server.js:355). -/
inductive Vote
  | up
  | down
deriving DecidableEq, Repr

/-- The opposite vote direction. -/
def Vote.opp : Vote → Vote
  | .up => .down
  | .down => .up

/-- A comment's persisted counters after the non-finite-to-0 defaulting of
server.js:372-373; both are non-negative, matching the data model (§3). -/
structure VoteState where
  up : Nat
  down : Nat
deriving DecidableEq, Repr

/-- The vote transition (server.js:375-397).  `prev = none` models a client
reporting no prior vote (server.js:356).  Truncated `Nat` subtraction models
the `Math.max(0, n - 1)` floor exactly. -/
def applyVote (s : VoteState) (vote : Vote) (prev : Option Vote) : VoteState :=
  if prev = some vote then s
  else
    match vote with
    | .up => { up := s.up + 1, down := if prev = some .down then s.down - 1 else s.down }
    | .down => { up := if prev = some .up then s.up - 1 else s.up, down := s.down + 1 }

/-- C2: for every comment counter state and every `applyVote` call:
`prevVote == vote` is a no-op returning the counters unchanged (so repeating
the same pair never changes counters); an opposite `prevVote` increments the
new vote's counter and decrements the opposite counter floored at 0;
`prevVote == none` increments only the requested counter; and counters (3,1)
with `vote=down, prevVote=up` yield (2,2). -/
theorem c2_applyVote_transitions :
    ∀ (s : VoteState) (v : Vote) (p : Option Vote),
      (p = some v → applyVote s v p = s ∧
        applyVote (applyVote s v p) v p = applyVote s v p) ∧
      (applyVote s v (some v.opp)
        = match v with
          | .up => { up := s.up + 1, down := s.down - 1 }
          | .down => { up := s.up - 1, down := s.down + 1 }) ∧
      (applyVote s v none
        = match v with
          | .up => { up := s.up + 1, down := s.down }
          | .down => { up := s.up, down := s.down + 1 }) ∧
      (applyVote ⟨3, 1⟩ .down (some .up) = ⟨2, 2⟩) ∧
      (applyVote ⟨0, 5⟩ .down (some .up) = ⟨0, 6⟩) := by
  intro s v p
  refine ⟨?_, ?_, ?_, by decide, by decide⟩
  · intro hp
    subst hp
    simp [applyVote]
  · cases v <;> simp [applyVote, Vote.opp]
  · cases v <;> simp [applyVote]

theorem c2_witness :
    (some Vote.up = some Vote.up) ∧
    applyVote ⟨2, 2⟩ .up (some .up) = ⟨2, 2⟩ :=
  ⟨rfl, ((c2_applyVote_transitions ⟨2, 2⟩ .up (some .up)).1 rfl).1⟩

/-! ## Identity canonicalizer — `slugToTag` (src/server.js:92-97) -/

/-- Characters the tag grammar `^[A-Za-z0-9_-]+#\d{4}$` (TAG_REGEX,
server.js:18) allows in the name part. -/
def isTagChar (c : Char) : Bool :=
  c.isAlpha || c.isDigit || c == '_' || c == '-'

/-- JS line terminators, which `.` in a JS regex does not match. -/
def isLineTerminator (c : Char) : Bool :=
  c == Char.ofNat 10 || c == Char.ofNat 13 ||
  c == Char.ofNat 0x2028 || c == Char.ofNat 0x2029

/-- The match-and-reassemble step of `slugToTag` (server.js:94-96), applied
to the already-percent-decoded slug, as a character list.  In
`decoded.match(/^(.*)-(\d{4})$/)` the tail after the greedy `(.*)` must be
exactly five characters (`-` plus 4 digits), so the only possible split is
before the last five characters; the match is therefore modelled by
inspecting them.  `(.*)` refuses JS line terminators, and on success the
function rebuilds the tag as `match[1] + "#" + match[2]` with the original
case preserved.  The preceding `decodeURIComponent(slug)` step of
server.js:93 is modelled by `decodeUriComponent` below and the whole
function by `slugToTagFull`; on the %-free slugs of valid tags (C5's
domain) decoding is the identity. -/
def slugToTag (s : List Char) : Option (List Char) :=
  match s.reverse with
  | d4 :: d3 :: d2 :: d1 :: h :: preRev =>
      if h == '-' && d1.isDigit && d2.isDigit && d3.isDigit && d4.isDigit
          && preRev.all (fun c => !isLineTerminator c) then
        some (preRev.reverse ++ '#' :: [d1, d2, d3, d4])
      else none
  | _ => none

/-- Modelled from the spec (§4.1): `slugify` replaces `#` with `-`.  (The
slug-producing side lives in the static frontend, which is not part of
src/server.js.) -/
def slugify (t : List Char) : List Char :=
  t.map (fun c => if c = '#' then '-' else c)

/-- Modelled from the spec (§4.1 / §3): the canonical form of a tag is its
lowercase (ASCII lowering suffices on the tag character set). -/
def canonicalTag (t : List Char) : List Char := t.map Char.toLower

/-- A valid tag split into its name part and its 4-digit suffix
(`^[A-Za-z0-9_-]+#\d{4}$`). -/
def ValidTag (name ds : List Char) : Prop :=
  name ≠ [] ∧ name.all isTagChar = true ∧
  ds.length = 4 ∧ ds.all Char.isDigit = true

instance (name ds : List Char) : Decidable (ValidTag name ds) := by
  unfold ValidTag
  infer_instance

theorem isTagChar_not_lineTerminator (c : Char) (h : isTagChar c = true) :
    isLineTerminator c = false := by
  cases hlt : isLineTerminator c with
  | false => rfl
  | true =>
      exfalso
      unfold isLineTerminator at hlt
      simp only [Bool.or_eq_true, beq_iff_eq] at hlt
      rcases hlt with ((h1 | h1) | h1) | h1 <;> subst h1 <;> revert h <;> decide

theorem exists_four_of_length_four {α : Type} (l : List α) (h : l.length = 4) :
    ∃ a b c d, l = [a, b, c, d] := by
  match l, h with
  | [a, b, c, d], _ => exact ⟨a, b, c, d, rfl⟩

theorem slugify_no_hash (l : List Char) (h : l.all isTagChar = true) :
    l.map (fun c => if c = '#' then '-' else c) = l := by
  induction l with
  | nil => rfl
  | cons c cs ih =>
      simp only [List.all_cons, Bool.and_eq_true] at h
      simp only [List.map_cons]
      have hc : c ≠ '#' := by
        intro heq
        subst heq
        exact absurd h.1 (by decide)
      rw [if_neg hc, ih h.2]

theorem slugToTag_pos (preRev : List Char) (d1 d2 d3 d4 : Char)
    (h1 : d1.isDigit = true) (h2 : d2.isDigit = true) (h3 : d3.isDigit = true)
    (h4 : d4.isDigit = true)
    (hp : preRev.all (fun c => !isLineTerminator c) = true) :
    slugToTag (preRev.reverse ++ '-' :: [d1, d2, d3, d4])
      = some (preRev.reverse ++ '#' :: [d1, d2, d3, d4]) := by
  unfold slugToTag
  have hrev : (preRev.reverse ++ '-' :: [d1, d2, d3, d4]).reverse
      = d4 :: d3 :: d2 :: d1 :: '-' :: preRev := by
    simp
  rw [hrev]
  simp only [h1, h2, h3, h4, hp, beq_self_eq_true, Bool.and_true, Bool.true_and, if_true]

/-- C5 fails as stated: `slugToTag` rebuilds the tag with its original case,
so for the mixed-case valid tag `Ab#1234` the deslugified slug is `Ab#1234`
itself, not the canonical lowercase form `ab#1234`. -/
theorem c5_counterexample :
    slugToTag (slugify "Ab#1234".data) = some "Ab#1234".data ∧
    some "Ab#1234".data ≠ some (canonicalTag "Ab#1234".data) := by
  constructor <;> decide

/-- C5 amended: for every valid tag `t` (matching `^[A-Za-z0-9_-]+#\d{4}$`),
deslugifying the slug of `t` yields `t` itself with its case preserved —
including when the name part contains hyphens or ends in digits, the last
hyphen-plus-4-digits group being treated as the suffix; the canonical
lowercase form is only produced by the routes' subsequent `toLowerCase`
step, i.e. lowercasing the round-trip result gives `canonical(t)`. -/
theorem c5_amended_roundtrip :
    ∀ name ds, ValidTag name ds →
      slugToTag (slugify (name ++ '#' :: ds)) = some (name ++ '#' :: ds) ∧
      Option.map canonicalTag (slugToTag (slugify (name ++ '#' :: ds)))
        = some (canonicalTag (name ++ '#' :: ds)) := by
  intro name ds hv
  obtain ⟨hne, hchars, hlen, hdig⟩ := hv
  obtain ⟨a, b, c, d, rfl⟩ := exists_four_of_length_four ds hlen
  simp only [List.all_cons, List.all_nil, Bool.and_eq_true, and_true] at hdig
  obtain ⟨ha, ⟨hb, ⟨hc, hd⟩⟩⟩ := hdig
  have hdigne : ∀ x : Char, x.isDigit = true → (if x = '#' then '-' else x) = x := by
    intro x hx
    have hxne : x ≠ '#' := by
      intro he
      subst he
      exact absurd hx (by decide)
    rw [if_neg hxne]
  have hsl : slugify (name ++ '#' :: [a, b, c, d]) = name ++ '-' :: [a, b, c, d] := by
    unfold slugify
    rw [List.map_append, slugify_no_hash name hchars]
    congr 1
    simp [hdigne a ha, hdigne b hb, hdigne c hc, hdigne d hd]
  have hnlt : name.reverse.all (fun c => !isLineTerminator c) = true := by
    rw [List.all_reverse]
    rw [List.all_eq_true] at hchars ⊢
    intro x hx
    have := isTagChar_not_lineTerminator x (hchars x hx)
    simp [this]
  have hpos := slugToTag_pos name.reverse a b c d ha hb hc hd hnlt
  rw [List.reverse_reverse] at hpos
  refine ⟨by rw [hsl]; exact hpos, by rw [hsl, hpos]; rfl⟩

theorem c5_witness :
    ValidTag "ab-12".data "1234".data ∧
    slugToTag (slugify ("ab-12".data ++ '#' :: "1234".data))
      = some ("ab-12".data ++ '#' :: "1234".data) :=
  ⟨by decide, (c5_amended_roundtrip "ab-12".data "1234".data (by decide)).1⟩

/-- A character that `parseInt`-style hex reading accepts: `0-9a-fA-F`. -/
def isHexDigit (c : Char) : Bool :=
  c.isDigit || (decide ('a' ≤ c) && decide ('f' ≥ c))
    || (decide ('A' ≤ c) && decide ('F' ≥ c))

/-- The value of a hex digit. -/
def hexVal (c : Char) : Nat :=
  if c.isDigit then c.toNat - 48
  else if decide ('a' ≤ c) then c.toNat - 87
  else c.toNat - 55

/-- One unit of a percent-encoded string: a literal character or the byte of
a `%XY` escape. -/
inductive UriTok
  | raw (c : Char)
  | byte (b : Nat)
deriving DecidableEq, Repr

/-- Scan the percent escapes (first half of ECMA-262 `Decode`): a `%` not
followed by two hex digits throws `URIError`, modelled as `none`. -/
def uriTokens : List Char → Option (List UriTok)
  | [] => some []
  | '%' :: h1 :: h2 :: rest =>
      if isHexDigit h1 && isHexDigit h2 then
        (uriTokens rest).map (fun ts => .byte (16 * hexVal h1 + hexVal h2) :: ts)
      else none
  | '%' :: _ => none
  | c :: rest => (uriTokens rest).map (fun ts => .raw c :: ts)

/-- A UTF-8 continuation byte `0b10xxxxxx`. -/
def isCont (b : Nat) : Bool := decide (0x80 ≤ b) && decide (b < 0xC0)

/-- UTF-8 decoding of the escape bytes (second half of ECMA-262 `Decode`):
a lone continuation byte, an overlong encoding, an encoded surrogate half,
an out-of-range code point or a truncated sequence throws `URIError`,
modelled as `none`; literal characters pass through unchanged. -/
def utf8Decode : List UriTok → Option (List Char)
  | [] => some []
  | .raw c :: ts => (utf8Decode ts).map (fun r => c :: r)
  | .byte b :: ts =>
      if b < 0x80 then (utf8Decode ts).map (fun r => Char.ofNat b :: r)
      else if b < 0xC2 then none
      else if b < 0xE0 then
        match ts with
        | .byte b1 :: ts2 =>
            if isCont b1 then
              (utf8Decode ts2).map (fun r =>
                Char.ofNat ((b - 0xC0) * 64 + (b1 - 0x80)) :: r)
            else none
        | _ => none
      else if b < 0xF0 then
        match ts with
        | .byte b1 :: .byte b2 :: ts2 =>
            if isCont b1 && isCont b2 then
              let v := (b - 0xE0) * 4096 + (b1 - 0x80) * 64 + (b2 - 0x80)
              if v < 0x800 ∨ (0xD800 ≤ v ∧ v < 0xE000) then none
              else (utf8Decode ts2).map (fun r => Char.ofNat v :: r)
            else none
        | _ => none
      else if b < 0xF5 then
        match ts with
        | .byte b1 :: .byte b2 :: .byte b3 :: ts2 =>
            if isCont b1 && isCont b2 && isCont b3 then
              let v := (b - 0xF0) * 262144 + (b1 - 0x80) * 4096
                + (b2 - 0x80) * 64 + (b3 - 0x80)
              if v < 0x10000 ∨ 0x110000 ≤ v then none
              else (utf8Decode ts2).map (fun r => Char.ofNat v :: r)
            else none
        | _ => none
      else none

/-- `decodeURIComponent(slug)` (server.js:93): `none` models the thrown
`URIError` (a decoded astral code point is one `Char` scalar here, the
equivalent of its JS surrogate pair). -/
def decodeUriComponent (s : List Char) : Option (List Char) :=
  (uriTokens s).bind utf8Decode

/-- The three observable outcomes of `slugToTag` at its call sites
(server.js:137, 250, ...): a thrown `URIError` — the call sits outside the
route's `try`, so it surfaces as a 500, not the invalid-slug error — a
`null` return (the invalid-slug 400), or a tag. -/
inductive SlugResult
  | uriError
  | invalid
  | tag (t : List Char)
deriving DecidableEq, Repr

/-- `slugToTag` (server.js:92-97) in full: percent-decode, then match
`/^(.*)-(\d{4})$/` and reassemble. -/
def slugToTagFull (slug : List Char) : SlugResult :=
  match decodeUriComponent slug with
  | none => .uriError
  | some decoded =>
      match slugToTag decoded with
      | none => .invalid
      | some t => .tag t

theorem slugToTag_some_shape :
    ∀ (s t : List Char), slugToTag s = some t →
      ∃ p d1 d2 d3 d4, s = p ++ '-' :: [d1, d2, d3, d4] ∧
        d1.isDigit = true ∧ d2.isDigit = true ∧ d3.isDigit = true ∧
        d4.isDigit = true := by
  intro s t h
  unfold slugToTag at h
  split at h
  case h_1 d4 d3 d2 d1 hc preRev heq =>
    split at h
    case isTrue hcond =>
      simp only [Bool.and_eq_true, beq_iff_eq] at hcond
      obtain ⟨⟨⟨⟨⟨hdash, h1⟩, h2⟩, h3⟩, h4⟩, _⟩ := hcond
      refine ⟨preRev.reverse, d1, d2, d3, d4, ?_, h1, h2, h3, h4⟩
      have hs : s = s.reverse.reverse := (List.reverse_reverse s).symm
      rw [hs, heq, hdash]
      simp
    case isFalse => exact absurd h (by simp)
  case h_2 => exact absurd h (by simp)

/-- C6 fails as stated on two of its own malformed classes: the
empty-prefix slug `-1234` is matched with an empty greedy capture and
accepted as the tag `#1234` instead of signalling the invalid-slug error,
and the wrong-length-suffix slug `%zz-123` (reachable as the `%25`-encoded
path segment `%25zz-123`) makes `decodeURIComponent` throw `URIError`
before the match — an unrelated error, not InvalidSlug.  (`abc%2D1234`
shows the decode step in the other direction: it decodes to `abc-1234` and
produces a tag.) -/
theorem c6_counterexample :
    slugToTagFull "-1234".data = SlugResult.tag "#1234".data ∧
    slugToTagFull "-1234".data ≠ SlugResult.invalid ∧
    slugToTagFull "%zz-123".data = SlugResult.uriError ∧
    slugToTagFull "%zz-123".data ≠ SlugResult.invalid ∧
    slugToTagFull "abc%2D1234".data = SlugResult.tag "abc#1234".data := by
  refine ⟨by decide, by decide, by decide, by decide, by decide⟩

/-- C6 amended: `deslugify` first percent-decodes the slug; a malformed
percent-escape (or invalid UTF-8 escape sequence) throws `URIError`, which
escapes the route's `try` and surfaces as a 500 — and this is the only
outcome other than `null` or a tag.  When decoding succeeds the result is
determined by the decoded string: the invalid-slug 400 is signalled exactly
when the decoded string fails the match — so every cleanly-decoding slug
whose decoded form lacks a final hyphen followed by exactly four digits
(missing or wrong-length numeric suffix) yields the invalid-slug error and
nothing else — and a successful tag is only produced from a decoded string
of that hyphen-plus-4-digits shape; an empty prefix with a valid suffix,
however, is accepted as `#NNNN`. -/
theorem c6_amended_decode_and_suffix :
    ∀ slug : List Char,
      (slugToTagFull slug = SlugResult.uriError ↔ decodeUriComponent slug = none) ∧
      (∀ decoded, decodeUriComponent slug = some decoded →
        (slugToTag decoded = none → slugToTagFull slug = SlugResult.invalid) ∧
        (∀ t, slugToTagFull slug = SlugResult.tag t →
          ∃ p d1 d2 d3 d4, decoded = p ++ '-' :: [d1, d2, d3, d4] ∧
            d1.isDigit = true ∧ d2.isDigit = true ∧ d3.isDigit = true ∧
            d4.isDigit = true)) := by
  intro slug
  refine ⟨⟨?_, ?_⟩, ?_⟩
  · intro h
    cases hd : decodeUriComponent slug with
    | none => rfl
    | some decoded =>
        exfalso
        simp only [slugToTagFull, hd] at h
        cases hm : slugToTag decoded with
        | none =>
            simp only [hm] at h
            cases h
        | some t =>
            simp only [hm] at h
            cases h
  · intro h
    simp only [slugToTagFull, h]
  · intro decoded hdec
    refine ⟨?_, ?_⟩
    · intro hnone
      simp only [slugToTagFull, hdec, hnone]
    · intro t ht
      simp only [slugToTagFull, hdec] at ht
      cases hm : slugToTag decoded with
      | none =>
          simp only [hm] at ht
          cases ht
      | some t2 =>
          simp only [hm] at ht
          cases ht
          exact slugToTag_some_shape decoded t hm

theorem c6_witness :
    decodeUriComponent "abc".data = some "abc".data ∧
    slugToTag "abc".data = none ∧
    slugToTagFull "abc".data = SlugResult.invalid :=
  ⟨by decide, by decide,
   ((c6_amended_decode_and_suffix "abc".data).2 "abc".data (by decide)).1
     (by decide)⟩

/-! ## Time-series aggregator — GET /api/raider/:slug/stats (src/server.js:127-242) -/

/-- A report row as fetched for the stats endpoint (server.js:168-174):
reason plus creation timestamp (valid by construction in the store). -/
structure StatsReport where
  reason : String
  created_at : Int
deriving DecidableEq, Repr

/-- The UTC calendar day index of a millisecond timestamp — the day that
`toISOString().slice(0, 10)` renders. -/
def dayOf (ms : Int) : Int := ms.fdiv MS_PER_DAY

/-- `Math.max(0, parseInt(req.query.offset, 10) || 0)` (server.js:135):
`none` models a missing/unparseable offset (NaN, defaulted by `|| 0`), and
`Int.toNat` is exactly the `Math.max(0, x)` clamp. -/
def offsetEff (p : Option Int) : Nat := (p.getD 0).toNat

/-- `span === "month" ? 30 : 7` (server.js:145). -/
def spanDaysOf (isMonth : Bool) : Nat := if isMonth then 30 else 7

/-- `endDate` (server.js:146-148): now with its UTC time forced to
23:59:59.999, then `offset * spanDays` calendar days earlier
(`setUTCDate(getUTCDate() - k)` subtracts exactly `k * 86400000` ms). -/
def endDateMs (nowMs : Int) (isMonth : Bool) (offset : Nat) : Int :=
  dayOf nowMs * MS_PER_DAY + (MS_PER_DAY - 1)
    - ((offset * spanDaysOf isMonth : Nat) : Int) * MS_PER_DAY

/-- `startDate` (server.js:150-152) as a day index: `endDate` truncated to
00:00:00.000 UTC and moved `(spanDays - 1)` days earlier. -/
def startDayIdx (nowMs : Int) (isMonth : Bool) (offset : Nat) : Int :=
  dayOf (endDateMs nowMs isMonth offset) - ((spanDaysOf isMonth - 1 : Nat) : Int)

/-- `startDate` in milliseconds. -/
def startDateMs (nowMs : Int) (isMonth : Bool) (offset : Nat) : Int :=
  startDayIdx nowMs isMonth offset * MS_PER_DAY

/-- The label-building loop (server.js:184-190), as day indices: for
`i = 0 .. spanDays-1` push the day `startDate + i`. -/
def labelDays (startDay : Int) : Nat → List Int
  | 0 => []
  | n + 1 => labelDays startDay n ++ [startDay + (n : Int)]

/-- Lookup in the `dateIndex` table (server.js:182-190, 200): the position
of a day among the labels. -/
def idxOf : List Int → Int → Option Nat
  | [], _ => none
  | x :: xs, d => if x = d then some 0 else (idxOf xs d).map (· + 1)

/-- `Object.keys(REASON_LABELS)` (server.js:28-35): the known non-comment
reason categories. -/
def REASON_KEYS : List String :=
  ["betrayal", "rat-tactics", "afk-griefing", "verbal-abuse",
   "cheating-exploiting", "offensive-name"]

/-- `datasets` initialization (server.js:192-194): one zero-filled bucket
array of length `spanDays` per known reason. -/
def initDatasets (n : Nat) : List (String × List Nat) :=
  REASON_KEYS.map (fun k => (k, List.replicate n 0))

/-- Increment position `i` of a bucket list (`datasets[reasonKey][idx] += 1`). -/
def bumpAt : Nat → List Nat → List Nat
  | _, [] => []
  | 0, x :: xs => (x + 1) :: xs
  | i + 1, x :: xs => x :: bumpAt i xs

/-- One iteration of the bucket-filling loop (server.js:196-204): return
unchanged when `datasets[reasonKey]` is absent (unknown reason) or when the
report's UTC day is not one of the labels; otherwise increment that
reason's bucket at the day's index. -/
def statsStep (startDay : Int) (n : Nat) (ds : List (String × List Nat))
    (r : StatsReport) : List (String × List Nat) :=
  if ds.any (fun p => p.1 == r.reason) then
    match idxOf (labelDays startDay n) (dayOf r.created_at) with
    | some i => ds.map (fun p => if p.1 == r.reason then (p.1, bumpAt i p.2) else p)
    | none => ds
  else ds

/-- The full bucket-filling pass (server.js:196-204). -/
def buildDatasets (startDay : Int) (n : Nat) (reports : List StatsReport) :
    List (String × List Nat) :=
  reports.foldl (statsStep startDay n) (initDatasets n)

/-- The DB window filter (server.js:173-174): `created_at` between
`startDate` and `endDate`, both inclusive. -/
def inWindow (startMs endMs : Int) (r : StatsReport) : Bool :=
  startMs ≤ r.created_at && r.created_at ≤ endMs

theorem bumpAt_length (i : Nat) (b : List Nat) : (bumpAt i b).length = b.length := by
  induction b generalizing i with
  | nil => cases i <;> rfl
  | cons x xs ih =>
      cases i with
      | zero => rfl
      | succ j => simpa [bumpAt] using ih j

theorem bumpAt_sum (i : Nat) (b : List Nat) (h : i < b.length) :
    (bumpAt i b).sum = b.sum + 1 := by
  induction b generalizing i with
  | nil => simp at h
  | cons x xs ih =>
      cases i with
      | zero => simp [bumpAt]; omega
      | succ j =>
          simp only [bumpAt, List.sum_cons]
          rw [ih j (by simpa using h)]
          omega

theorem idxOf_nil (d : Int) : idxOf [] d = none := rfl

theorem idxOf_cons (x : Int) (xs : List Int) (d : Int) :
    idxOf (x :: xs) d
      = if x = d then some 0 else (idxOf xs d).map (· + 1) := rfl

theorem idxOf_lt_length (l : List Int) (d : Int) (i : Nat) (h : idxOf l d = some i) :
    i < l.length := by
  induction l generalizing i with
  | nil => rw [idxOf_nil] at h; cases h
  | cons x xs ih =>
      rw [idxOf_cons] at h
      split at h
      · cases h
        rw [List.length_cons]
        omega
      · cases hrec : idxOf xs d with
        | none => rw [hrec] at h; cases h
        | some j =>
            rw [hrec] at h
            have hj : j + 1 = i := Option.some.inj h
            have := ih j hrec
            rw [List.length_cons]
            omega

theorem isSome_map_succ (o : Option Nat) : (o.map (· + 1)).isSome = o.isSome := by
  cases o <;> rfl

theorem idxOf_isSome_iff_mem (l : List Int) (d : Int) :
    (idxOf l d).isSome = true ↔ d ∈ l := by
  induction l with
  | nil =>
      rw [idxOf_nil]
      simp
  | cons x xs ih =>
      rw [idxOf_cons, List.mem_cons]
      split
      · rename_i heq
        simp only [Option.isSome_some, true_iff]
        left
        omega
      · rename_i hne
        rw [isSome_map_succ, ih]
        constructor
        · intro h
          right
          exact h
        · intro h
          rcases h with h | h
          · exact absurd h.symm hne
          · exact h

theorem mem_labelDays (startDay : Int) (n : Nat) (d : Int) :
    d ∈ labelDays startDay n ↔ startDay ≤ d ∧ d < startDay + (n : Int) := by
  induction n with
  | zero =>
      simp only [labelDays, List.not_mem_nil, false_iff]
      omega
  | succ m ih =>
      simp only [labelDays, List.mem_append, List.mem_singleton, ih]
      push_cast
      omega

theorem labelDays_length (startDay : Int) (n : Nat) :
    (labelDays startDay n).length = n := by
  induction n with
  | zero => rfl
  | succ m ih => simp [labelDays, ih]

theorem dayOf_mul_add (q r : Int) (h0 : 0 ≤ r) (h1 : r < MS_PER_DAY) :
    dayOf (q * MS_PER_DAY + r) = q := by
  unfold dayOf
  rw [Int.fdiv_eq_ediv _ (by norm_num [MS_PER_DAY])]
  rw [add_comm, Int.add_mul_ediv_right r q (by norm_num [MS_PER_DAY])]
  rw [Int.ediv_eq_zero_of_lt h0 h1]
  ring

theorem dayOf_bounds (t : Int) :
    dayOf t * MS_PER_DAY ≤ t ∧ t < (dayOf t + 1) * MS_PER_DAY := by
  unfold dayOf
  rw [Int.fdiv_eq_ediv _ (by norm_num [MS_PER_DAY])]
  have he := Int.ediv_add_emod t MS_PER_DAY
  have h0 : 0 ≤ t % MS_PER_DAY := Int.emod_nonneg t (by norm_num [MS_PER_DAY])
  have h1 : t % MS_PER_DAY < MS_PER_DAY :=
    Int.emod_lt_of_pos t (by norm_num [MS_PER_DAY])
  have hms : MS_PER_DAY = 86400000 := rfl
  rw [hms] at *
  omega

theorem endDateMs_eq (nowMs : Int) (m : Bool) (off : Nat) :
    endDateMs nowMs m off
      = (dayOf nowMs - ((off * spanDaysOf m : Nat) : Int)) * MS_PER_DAY
          + (MS_PER_DAY - 1) := by
  unfold endDateMs
  ring

theorem dayOf_endDateMs (nowMs : Int) (m : Bool) (off : Nat) :
    dayOf (endDateMs nowMs m off)
      = dayOf nowMs - ((off * spanDaysOf m : Nat) : Int) := by
  rw [endDateMs_eq, dayOf_mul_add] <;> norm_num [MS_PER_DAY]

theorem spanDaysOf_pos (m : Bool) : 0 < spanDaysOf m := by
  cases m <;> norm_num [spanDaysOf]

theorem le_dayOf_iff (D t : Int) : D ≤ dayOf t ↔ D * MS_PER_DAY ≤ t := by
  have hb := dayOf_bounds t
  have hmsnn : (0 : Int) ≤ MS_PER_DAY := by norm_num [MS_PER_DAY]
  have hmspos : (0 : Int) < MS_PER_DAY := by norm_num [MS_PER_DAY]
  constructor
  · intro h
    have h2 := mul_le_mul_of_nonneg_right h hmsnn
    linarith [hb.1]
  · intro h
    by_contra hlt
    push_neg at hlt
    have hlt2 : dayOf t + 1 ≤ D := by omega
    have h2 := mul_le_mul_of_nonneg_right hlt2 hmsnn
    linarith [hb.2]

theorem dayOf_le_iff (D t : Int) :
    dayOf t ≤ D ↔ t ≤ D * MS_PER_DAY + (MS_PER_DAY - 1) := by
  have hb := dayOf_bounds t
  have hmsnn : (0 : Int) ≤ MS_PER_DAY := by norm_num [MS_PER_DAY]
  have hmspos : (0 : Int) < MS_PER_DAY := by norm_num [MS_PER_DAY]
  constructor
  · intro h
    have h2 : dayOf t + 1 ≤ D + 1 := by omega
    have h3 := mul_le_mul_of_nonneg_right h2 hmsnn
    have h4 : (D + 1) * MS_PER_DAY = D * MS_PER_DAY + MS_PER_DAY := by ring
    linarith [hb.2]
  · intro h
    by_contra hlt
    push_neg at hlt
    have hlt2 : D + 1 ≤ dayOf t := by omega
    have h2 := mul_le_mul_of_nonneg_right hlt2 hmsnn
    have h4 : (D + 1) * MS_PER_DAY = D * MS_PER_DAY + MS_PER_DAY := by ring
    linarith [hb.1]

theorem startDayIdx_add_span (nowMs : Int) (m : Bool) (off : Nat) :
    startDayIdx nowMs m off + (spanDaysOf m : Int)
      = (dayOf nowMs - ((off * spanDaysOf m : Nat) : Int)) + 1 := by
  unfold startDayIdx
  rw [dayOf_endDateMs]
  have hpos := spanDaysOf_pos m
  have hcast : ((spanDaysOf m - 1 : Nat) : Int) = (spanDaysOf m : Int) - 1 := by
    omega
  omega

theorem inWindow_eq_isSome (nowMs : Int) (m : Bool) (off : Nat) (r : StatsReport) :
    inWindow (startDateMs nowMs m off) (endDateMs nowMs m off) r
      = (idxOf (labelDays (startDayIdx nowMs m off) (spanDaysOf m))
          (dayOf r.created_at)).isSome := by
  rw [Bool.eq_iff_iff]
  rw [idxOf_isSome_iff_mem, mem_labelDays]
  unfold inWindow
  rw [Bool.and_eq_true, decide_eq_true_eq, decide_eq_true_eq]
  unfold startDateMs
  rw [endDateMs_eq]
  have hsd := startDayIdx_add_span nowMs m off
  constructor
  · rintro ⟨h1, h2⟩
    refine ⟨(le_dayOf_iff _ _).mpr h1, ?_⟩
    have h3 := (dayOf_le_iff _ _).mpr h2
    omega
  · rintro ⟨h1, h2⟩
    refine ⟨(le_dayOf_iff _ _).mp h1, ?_⟩
    apply (dayOf_le_iff _ _).mp
    omega

theorem statsStep_entry (sd : Int) (n : Nat) (ds : List (String × List Nat))
    (r : StatsReport) (hlen : ∀ p ∈ ds, p.2.length = n)
    (q : String × List Nat) (hq : q ∈ statsStep sd n ds r) :
    ∃ p ∈ ds, p.1 = q.1 ∧ q.2.length = p.2.length ∧
      q.2.sum = p.2.sum + (if p.1 == r.reason
        && (idxOf (labelDays sd n) (dayOf r.created_at)).isSome
        then 1 else 0) := by
  unfold statsStep at hq
  split at hq
  · rename_i hany
    cases hidx : idxOf (labelDays sd n) (dayOf r.created_at) with
    | none =>
        rw [hidx] at hq
        refine ⟨q, hq, rfl, rfl, ?_⟩
        simp
    | some i =>
        rw [hidx] at hq
        rw [List.mem_map] at hq
        obtain ⟨p, hp, hpq⟩ := hq
        by_cases hr : (p.1 == r.reason) = true
        · rw [if_pos hr] at hpq
          subst hpq
          have hi : i < p.2.length := by
            have h1 := idxOf_lt_length _ _ _ hidx
            rw [labelDays_length] at h1
            rw [hlen p hp]
            exact h1
          refine ⟨p, hp, rfl, bumpAt_length i p.2, ?_⟩
          have hcond : (p.1 == r.reason && (some i).isSome) = true := by
            simp [hr]
          rw [if_pos hcond]
          exact bumpAt_sum i p.2 hi
        · rw [if_neg hr] at hpq
          subst hpq
          refine ⟨p, hp, rfl, rfl, ?_⟩
          have hrf : (p.1 == r.reason) = false := by
            rwa [Bool.not_eq_true] at hr
          simp [hrf]
  · rename_i hany
    refine ⟨q, hq, rfl, rfl, ?_⟩
    have hanyf : ds.any (fun p => p.1 == r.reason) = false := by
      rwa [Bool.not_eq_true] at hany
    rw [List.any_eq_false] at hanyf
    have hfq := hanyf q hq
    have hfq2 : (q.1 == r.reason) = false := by
      rwa [Bool.not_eq_true] at hfq
    simp [hfq2]

theorem buildFrom_spec (sd : Int) (n : Nat) (rs : List StatsReport) :
    ∀ (ds : List (String × List Nat)), (∀ p ∈ ds, p.2.length = n) →
      ∀ q ∈ rs.foldl (statsStep sd n) ds,
        ∃ p ∈ ds, p.1 = q.1 ∧ q.2.length = p.2.length ∧
          q.2.sum = p.2.sum + rs.countP (fun r => p.1 == r.reason
            && (idxOf (labelDays sd n) (dayOf r.created_at)).isSome) := by
  induction rs with
  | nil =>
      intro ds hlen q hq
      refine ⟨q, hq, rfl, rfl, ?_⟩
      simp
  | cons r rs ih =>
      intro ds hlen q hq
      rw [List.foldl_cons] at hq
      have hlen1 : ∀ p ∈ statsStep sd n ds r, p.2.length = n := by
        intro p hp
        obtain ⟨p0, hp0, _, hl, _⟩ := statsStep_entry sd n ds r hlen p hp
        rw [hl]
        exact hlen p0 hp0
      obtain ⟨q1, hq1, hkey1, hlen1q, hsum1⟩ := ih (statsStep sd n ds r) hlen1 q hq
      obtain ⟨p, hp, hkeyp, hlenp, hsump⟩ := statsStep_entry sd n ds r hlen q1 hq1
      refine ⟨p, hp, by rw [hkeyp, hkey1], by rw [hlen1q, hlenp], ?_⟩
      rw [hsum1, hsump, List.countP_cons]
      rw [hkeyp]
      omega

theorem statsStep_keys (sd : Int) (n : Nat) (ds : List (String × List Nat))
    (r : StatsReport) :
    (statsStep sd n ds r).map Prod.fst = ds.map Prod.fst := by
  unfold statsStep
  split
  · cases hidx : idxOf (labelDays sd n) (dayOf r.created_at) with
    | none => rfl
    | some i =>
        rw [List.map_map]
        apply List.map_congr_left
        intro p _
        by_cases hr : p.1 = r.reason
        · simp [hr]
        · simp [hr]
  · rfl

theorem buildFrom_keys (sd : Int) (n : Nat) (rs : List StatsReport) :
    ∀ (ds : List (String × List Nat)),
      (rs.foldl (statsStep sd n) ds).map Prod.fst = ds.map Prod.fst := by
  induction rs with
  | nil => intro ds; rfl
  | cons r rs ih =>
      intro ds
      rw [List.foldl_cons, ih, statsStep_keys]

theorem initDatasets_keys (n : Nat) :
    (initDatasets n).map Prod.fst = REASON_KEYS := by
  simp only [initDatasets, List.map_map]
  have h : (Prod.fst ∘ fun k : String => (k, List.replicate n 0))
      = fun k : String => k := rfl
  rw [h]
  exact List.map_id' REASON_KEYS

theorem initDatasets_mem (n : Nat) (p : String × List Nat)
    (hp : p ∈ initDatasets n) : p.2 = List.replicate n 0 := by
  unfold initDatasets at hp
  rw [List.mem_map] at hp
  obtain ⟨k, _, hk⟩ := hp
  rw [← hk]

theorem statsStep_skip_window (sd : Int) (n : Nat) (ds : List (String × List Nat))
    (r : StatsReport)
    (h : (idxOf (labelDays sd n) (dayOf r.created_at)).isSome = false) :
    statsStep sd n ds r = ds := by
  have hnone : idxOf (labelDays sd n) (dayOf r.created_at) = none := by
    cases hc : idxOf (labelDays sd n) (dayOf r.created_at) with
    | none => rfl
    | some i => rw [hc] at h; cases h
  unfold statsStep
  rw [hnone]
  split <;> rfl

theorem statsStep_skip_unknown (sd : Int) (n : Nat) (ds : List (String × List Nat))
    (r : StatsReport) (hkeys : ds.map Prod.fst = REASON_KEYS)
    (h : REASON_KEYS.contains r.reason = false) :
    statsStep sd n ds r = ds := by
  unfold statsStep
  rw [if_neg]
  intro hany
  rw [List.any_eq_true] at hany
  obtain ⟨p, hp, hpr⟩ := hany
  rw [beq_iff_eq] at hpr
  have hmem : r.reason ∈ ds.map Prod.fst := by
    rw [List.mem_map]
    exact ⟨p, hp, hpr⟩
  rw [hkeys] at hmem
  have hc : REASON_KEYS.contains r.reason = true := List.elem_iff.mpr hmem
  rw [h] at hc
  cases hc

theorem foldl_eq_foldl_filter {α β : Type} (f : β → α → β) (pr : α → Bool)
    (inv : β → Prop)
    (hstep : ∀ b a, inv b → inv (f b a))
    (hskip : ∀ b a, inv b → pr a = false → f b a = b) :
    ∀ (l : List α) (b : β), inv b → l.foldl f b = (l.filter pr).foldl f b := by
  intro l
  induction l with
  | nil =>
      intro b _
      rfl
  | cons a l ih =>
      intro b hb
      rw [List.foldl_cons, List.filter_cons]
      cases hpa : pr a with
      | false =>
          rw [hskip b a hb hpa]
          exact ih b hb
      | true =>
          exact ih (f b a) (hstep b a hb)

/-- C3: for every span (week = 7 days, month = 30 days), offset, and report
multiset: the output has exactly `spanDays` bucket entries per known
reason-category sequence regardless of report volume (including zero); for
each known reason the bucket counts sum exactly to the number of in-window
reports of that reason; buckets never receive counts from reports whose
`created_at` falls outside `[startDate, endDate]` (aggregating the
unfiltered rows equals aggregating the window-filtered rows); and a report
whose reason is outside the known enumerated set is silently dropped from
all buckets without error (aggregation equals aggregation of the
known-reason rows only). -/
theorem c3_time_series_invariants :
    ∀ (nowMs : Int) (isMonth : Bool) (p : Option Int) (rs : List StatsReport),
      (buildDatasets (startDayIdx nowMs isMonth (offsetEff p)) (spanDaysOf isMonth)
          rs).map Prod.fst = REASON_KEYS ∧
      (∀ q ∈ buildDatasets (startDayIdx nowMs isMonth (offsetEff p))
          (spanDaysOf isMonth) rs,
        q.2.length = spanDaysOf isMonth ∧
        q.2.sum = rs.countP (fun r => q.1 == r.reason
          && inWindow (startDateMs nowMs isMonth (offsetEff p))
               (endDateMs nowMs isMonth (offsetEff p)) r)) ∧
      buildDatasets (startDayIdx nowMs isMonth (offsetEff p)) (spanDaysOf isMonth) rs
        = buildDatasets (startDayIdx nowMs isMonth (offsetEff p)) (spanDaysOf isMonth)
            (rs.filter (inWindow (startDateMs nowMs isMonth (offsetEff p))
               (endDateMs nowMs isMonth (offsetEff p)))) ∧
      buildDatasets (startDayIdx nowMs isMonth (offsetEff p)) (spanDaysOf isMonth) rs
        = buildDatasets (startDayIdx nowMs isMonth (offsetEff p)) (spanDaysOf isMonth)
            (rs.filter (fun r => REASON_KEYS.contains r.reason)) := by
  intro nowMs isMonth p rs
  have hinitlen : ∀ q ∈ initDatasets (spanDaysOf isMonth),
      q.2.length = spanDaysOf isMonth := by
    intro q hq
    rw [initDatasets_mem _ q hq, List.length_replicate]
  refine ⟨?_, ?_, ?_, ?_⟩
  · unfold buildDatasets
    rw [buildFrom_keys, initDatasets_keys]
  · intro q hq
    obtain ⟨p0, hp0, hk, hl, hs⟩ := buildFrom_spec
      (startDayIdx nowMs isMonth (offsetEff p)) (spanDaysOf isMonth) rs
      (initDatasets (spanDaysOf isMonth)) hinitlen q hq
    have hrep := initDatasets_mem _ p0 hp0
    constructor
    · rw [hl, hrep, List.length_replicate]
    · rw [hs, hrep]
      have hz : (List.replicate (spanDaysOf isMonth) (0 : Nat)).sum = 0 := by
        simp
      rw [hz, zero_add]
      apply List.countP_congr
      intro r _
      simp only [hk, Bool.and_eq_true, beq_iff_eq]
      rw [inWindow_eq_isSome nowMs isMonth (offsetEff p) r]
  · unfold buildDatasets
    apply foldl_eq_foldl_filter (statsStep _ _) _ (fun _ => True)
    · intro b a _
      trivial
    · intro b a _ hpa
      apply statsStep_skip_window
      rw [← inWindow_eq_isSome]
      exact hpa
    · trivial
  · unfold buildDatasets
    apply foldl_eq_foldl_filter (statsStep _ _) _
      (fun ds => ds.map Prod.fst = REASON_KEYS)
    · intro b a hb
      rw [statsStep_keys]
      exact hb
    · intro b a hb hpa
      exact statsStep_skip_unknown _ _ b a hb hpa
    · exact initDatasets_keys _

theorem c3_witness :
    (("betrayal", List.replicate 7 (0 : Nat)) ∈
        buildDatasets (startDayIdx 0 false (offsetEff none)) (spanDaysOf false) []) ∧
    (("betrayal", List.replicate 7 (0 : Nat)).2.length = spanDaysOf false ∧
      ("betrayal", List.replicate 7 (0 : Nat)).2.sum
        = List.countP (fun r => ("betrayal", List.replicate 7 (0 : Nat)).1 == r.reason
            && inWindow (startDateMs 0 false (offsetEff none))
                 (endDateMs 0 false (offsetEff none)) r) []) :=
  ⟨by decide,
   (c3_time_series_invariants 0 false none []).2.1
     ("betrayal", List.replicate 7 (0 : Nat)) (by decide)⟩

/-- The Gregorian (year, month, day) of a UTC day index — the date that
`toISOString().slice(0, 10)` renders (standard civil-from-days algorithm). -/
def civilFromDays (z0 : Int) : Int × Nat × Nat :=
  let z := z0 + 719468
  let era := z.fdiv 146097
  let doe := (z - era * 146097).toNat
  let yoe := (doe - doe / 1460 + doe / 36524 - doe / 146096) / 365
  let y := (yoe : Int) + era * 400
  let doy := doe - (365 * yoe + yoe / 4 - yoe / 100)
  let mp := (5 * doy + 2) / 153
  let d := doy - (153 * mp + 2) / 5 + 1
  let m := if mp < 10 then mp + 3 else mp - 9
  (if m ≤ 2 then y + 1 else y, m, d)

def pad2 (k : Nat) : String := if k < 10 then "0" ++ toString k else toString k

def pad4 (k : Nat) : String :=
  if k < 10 then "000" ++ toString k
  else if k < 100 then "00" ++ toString k
  else if k < 1000 then "0" ++ toString k
  else toString k

/-- `d.toISOString().slice(0, 10)` (server.js:187) for a UTC day index. -/
def isoDay (day : Int) : String :=
  let c := civilFromDays day
  pad4 c.1.toNat ++ "-" ++ pad2 c.2.1 ++ "-" ++ pad2 c.2.2

/-- The `labels` array (server.js:180-190). -/
def statsLabels (nowMs : Int) (isMonth : Bool) (p : Option Int) : List String :=
  (labelDays (startDayIdx nowMs isMonth (offsetEff p)) (spanDaysOf isMonth)).map isoDay

/-- en-US short month names, as produced by `toLocaleString("en-US",
{month: "short"})` (server.js:211-215). -/
def MONTH_SHORT : List String :=
  ["Jan", "Feb", "Mar", "Apr", "May", "Jun",
   "Jul", "Aug", "Sep", "Oct", "Nov", "Dec"]

/-- One display label (server.js:206-216): the day-of-month number for the
month span, the localized "Mon D" short form for the week span. -/
def displayLabelOf (isMonth : Bool) (day : Int) : String :=
  let c := civilFromDays day
  if isMonth then toString c.2.2
  else MONTH_SHORT.getD (c.2.1 - 1) "" ++ " " ++ toString c.2.2

/-- `displayLabels` including the "Today" replacement of the last entry when
`offset === 0 && span !== "month" && displayLabels.length > 0`
(server.js:206-219). -/
def displayLabels (nowMs : Int) (isMonth : Bool) (p : Option Int) : List String :=
  let ls := (labelDays (startDayIdx nowMs isMonth (offsetEff p))
    (spanDaysOf isMonth)).map (displayLabelOf isMonth)
  if offsetEff p = 0 ∧ isMonth = false ∧ ls ≠ [] then
    ls.set (ls.length - 1) "Today"
  else ls

/-- Modelled from the spec (§4.3): `endDate` = today at 23:59:59.999 UTC
minus `offset * spanDays` days. -/
def specEndDate (nowMs : Int) (isMonth : Bool) (off : Nat) : Int :=
  (dayOf nowMs * MS_PER_DAY + (MS_PER_DAY - 1))
    - ((off * spanDaysOf isMonth : Nat) : Int) * MS_PER_DAY

/-- Modelled from the spec (§4.3): `startDate` = `endDate` minus
`(spanDays - 1)` days, truncated to 00:00:00.000 UTC. -/
def specStartDate (nowMs : Int) (isMonth : Bool) (off : Nat) : Int :=
  dayOf (specEndDate nowMs isMonth off
    - ((spanDaysOf isMonth - 1 : Nat) : Int) * MS_PER_DAY) * MS_PER_DAY

theorem set_last_eq {α : Type} (l : List α) (x : α) (h : l ≠ []) :
    l.set (l.length - 1) x = l.dropLast ++ [x] := by
  induction l with
  | nil => cases h rfl
  | cons a l ih =>
      cases l with
      | nil => rfl
      | cons b t =>
          have ih2 := ih (by simp)
          simp only [List.length_cons, Nat.add_sub_cancel] at ih2 ⊢
          show a :: ((b :: t).set t.length x) = a :: ((b :: t).dropLast ++ [x])
          rw [← ih2]

theorem getLast?_set_last {α : Type} (l : List α) (x : α) (h : l ≠ []) :
    (l.set (l.length - 1) x).getLast? = some x := by
  rw [set_last_eq l x h, List.getLast?_concat]

theorem endDateMs_eq_spec (nowMs : Int) (isMonth : Bool) (off : Nat) :
    endDateMs nowMs isMonth off = specEndDate nowMs isMonth off := by
  unfold endDateMs specEndDate
  ring

theorem startDateMs_eq_spec (nowMs : Int) (isMonth : Bool) (off : Nat) :
    startDateMs nowMs isMonth off = specStartDate nowMs isMonth off := by
  unfold startDateMs startDayIdx specStartDate
  rw [← endDateMs_eq_spec, dayOf_endDateMs, endDateMs_eq]
  have harg : (dayOf nowMs - ((off * spanDaysOf isMonth : Nat) : Int)) * MS_PER_DAY
      + (MS_PER_DAY - 1) - ((spanDaysOf isMonth - 1 : Nat) : Int) * MS_PER_DAY
      = (dayOf nowMs - ((off * spanDaysOf isMonth : Nat) : Int)
          - ((spanDaysOf isMonth - 1 : Nat) : Int)) * MS_PER_DAY
        + (MS_PER_DAY - 1) := by
    ring
  rw [harg, dayOf_mul_add _ _ (by norm_num [MS_PER_DAY]) (by norm_num [MS_PER_DAY])]

theorem statsLabels_length (nowMs : Int) (isMonth : Bool) (p : Option Int) :
    (statsLabels nowMs isMonth p).length = spanDaysOf isMonth := by
  unfold statsLabels
  rw [List.length_map, labelDays_length]

/-- C7: for every stats request the window is `endDate` = today at
23:59:59.999 UTC minus `offset * spanDays` days and `startDate` = `endDate`
minus `(spanDays - 1)` days truncated to 00:00:00.000 UTC, with the offset
clamped to be non-negative; the label sequence always has `spanDays`
entries; when `offset == 0` and the span is week the last display label is
the literal string "Today"; and with today = 2024-03-10 UTC, span = week,
offset = 0 the bucket labels are 2024-03-04 .. 2024-03-10 inclusive and the
display label for 2024-03-10 is "Today". -/
theorem c7_window_and_labels :
    (∀ v : Int, v ≤ 0 → offsetEff (some v) = 0) ∧
    (∀ (nowMs : Int) (isMonth : Bool) (p : Option Int),
      endDateMs nowMs isMonth (offsetEff p) = specEndDate nowMs isMonth (offsetEff p) ∧
      startDateMs nowMs isMonth (offsetEff p)
        = specStartDate nowMs isMonth (offsetEff p) ∧
      (statsLabels nowMs isMonth p).length = spanDaysOf isMonth) ∧
    (∀ (nowMs : Int) (p : Option Int), offsetEff p = 0 →
      (displayLabels nowMs false p).getLast? = some "Today") ∧
    (statsLabels (19792 * MS_PER_DAY + 43200000) false (some 0)
        = ["2024-03-04", "2024-03-05", "2024-03-06", "2024-03-07",
           "2024-03-08", "2024-03-09", "2024-03-10"] ∧
      isoDay 19792 = "2024-03-10" ∧
      (displayLabels (19792 * MS_PER_DAY + 43200000) false (some 0)).getLast?
        = some "Today") := by
  refine ⟨?_, ?_, ?_, by decide, by decide, by decide⟩
  · intro v hv
    unfold offsetEff
    simp only [Option.getD_some]
    omega
  · intro nowMs isMonth p
    exact ⟨endDateMs_eq_spec _ _ _, startDateMs_eq_spec _ _ _,
      statsLabels_length _ _ _⟩
  · intro nowMs p hoff
    unfold displayLabels
    have hlen : ((labelDays (startDayIdx nowMs false (offsetEff p))
        (spanDaysOf false)).map (displayLabelOf false)).length = 7 := by
      rw [List.length_map, labelDays_length]
      rfl
    have hne : (labelDays (startDayIdx nowMs false (offsetEff p))
        (spanDaysOf false)).map (displayLabelOf false) ≠ [] := by
      intro hnil
      rw [hnil] at hlen
      cases hlen
    rw [if_pos ⟨hoff, rfl, hne⟩]
    exact getLast?_set_last _ _ hne

theorem c7_witness :
    offsetEff (some 0) = 0 ∧
    (displayLabels (19792 * MS_PER_DAY + 43200000) false (some 0)).getLast?
      = some "Today" :=
  ⟨by decide,
   c7_window_and_labels.2.2.1 (19792 * MS_PER_DAY + 43200000) (some 0) (by decide)⟩

/-! ## Leaderboard aggregator — GET /api/leaderboard (src/server.js:308-347) -/

/-- One entry of the leaderboard `counts` map (server.js:328-337): the map
key (the lowercased tag), the stored display `tag` (the most recent row's
spelling), the running `count`, and the key's insertion position in the JS
`Map` (a `Map` preserves first-insertion order; `set` on an existing key
keeps its position). -/
structure LBEntry where
  key : List Char
  tag : List Char
  count : Nat
  idx : Nat
deriving DecidableEq, Repr

/-- One iteration of the counting loop (server.js:329-337): skip a row whose
joined tag is null or empty (`if (!tag) return`), otherwise set
`{tag, count: (prev?.count || 0) + 1}` under the lowercased tag. -/
def lbStep (acc : List LBEntry) (row : Option (List Char)) : List LBEntry :=
  match row with
  | none => acc
  | some t =>
      if t = [] then acc
      else if acc.any (fun e => e.key == canonicalTag t) then
        acc.map (fun e => if e.key == canonicalTag t
          then { e with tag := t, count := e.count + 1 } else e)
      else acc ++ [{ key := canonicalTag t, tag := t, count := 1, idx := acc.length }]

/-- The `counts` map after the full pass over the fetched rows. -/
def lbTally (rows : List (Option (List Char))) : List LBEntry :=
  rows.foldl lbStep []

/-- Whether a row is grouped under the canonical key `k`. -/
def rowMatches (k : List Char) (row : Option (List Char)) : Bool :=
  match row with
  | none => false
  | some t => !(t == []) && canonicalTag t == k

/-- The JS stable `sort((a, b) => b.count - a.count)` (server.js:339-340):
a stable descending sort by count is extensionally the sort by the strict
total order (count descending, insertion index ascending). -/
def lbRel (a b : LBEntry) : Prop :=
  b.count < a.count ∨ (a.count = b.count ∧ a.idx ≤ b.idx)

instance : DecidableRel lbRel := fun a b => by
  unfold lbRel
  infer_instance

instance : IsTotal LBEntry lbRel := by
  refine ⟨fun a b => ?_⟩
  unfold lbRel
  omega

instance : IsTrans LBEntry lbRel := by
  refine ⟨fun a b c hab hbc => ?_⟩
  unfold lbRel at hab hbc ⊢
  omega

/-- `Math.max(1, Math.min(parseInt(req.query.limit, 10) || 10, 25))`
(server.js:315): `none` models an unparseable limit (NaN), and a parsed 0
is falsy, so `|| 10` applies to both. -/
def lbLimit (p : Option Int) : Nat :=
  (max 1 (min (match p with | none => 10 | some 0 => 10 | some v => v) 25)).toNat

/-- GET /api/leaderboard (server.js:328-341): tally the rows, sort by count
descending (stable), truncate to the clamped limit. -/
def leaderboard (rows : List (Option (List Char))) (p : Option Int) : List LBEntry :=
  (List.insertionSort lbRel (lbTally rows)).take (lbLimit p)


/-- `counts.get(k)?.count || 0`: the count stored under key `k` (0 when the
key is absent). -/
def keyCount : List LBEntry → List Char → Nat
  | [], _ => 0
  | e :: es, k => if e.key == k then e.count else keyCount es k

theorem keyCount_eq_zero_of_not_any (acc : List LBEntry) (k : List Char)
    (h : acc.any (fun e => e.key == k) = false) : keyCount acc k = 0 := by
  induction acc with
  | nil => rfl
  | cons e es ih =>
      rw [List.any_cons, Bool.or_eq_false_iff] at h
      unfold keyCount
      rw [h.1]
      exact ih h.2

theorem keyCount_map_bump (K t k : List Char) (acc : List LBEntry) :
    keyCount (acc.map (fun e => if e.key == K
        then { e with tag := t, count := e.count + 1 } else e)) k
      = keyCount acc k
        + (if (K == k) && acc.any (fun e => e.key == k) then 1 else 0) := by
  induction acc with
  | nil => simp [keyCount]
  | cons e es ih =>
      simp only [List.map_cons, List.any_cons]
      by_cases hek : (e.key == k) = true
      · have hfek : ((if (e.key == K) = true
            then { e with tag := t, count := e.count + 1 } else e).key == k)
            = true := by
          by_cases hK : (e.key == K) = true
          · rw [if_pos hK]
            exact hek
          · rw [if_neg hK]
            exact hek
        by_cases hK : (e.key == K) = true
        · have hKk : (K == k) = true := by
            rw [beq_iff_eq] at hek hK ⊢
            rw [← hK, hek]
          unfold keyCount
          simp [hfek, hek, hK, hKk]
        · have hKk : (K == k) = false := by
            rw [beq_iff_eq] at hek
            rw [Bool.not_eq_true, beq_eq_false_iff_ne] at hK
            rw [beq_eq_false_iff_ne]
            intro hkk
            exact hK (by rw [hkk, ← hek])
          unfold keyCount
          simp [hfek, hek, hK, hKk]
      · have hekf : (e.key == k) = false := by
          rwa [Bool.not_eq_true] at hek
        have hfek : ((if (e.key == K) = true
            then { e with tag := t, count := e.count + 1 } else e).key == k)
            = false := by
          by_cases hK : (e.key == K) = true
          · rw [if_pos hK]
            exact hekf
          · rw [if_neg hK]
            exact hekf
        unfold keyCount
        simp only [hfek, hekf, Bool.false_eq_true, if_false, Bool.false_or]
        exact ih

theorem keyCount_append_single (acc : List LBEntry) (E : LBEntry) (k : List Char) :
    keyCount (acc ++ [E]) k
      = if acc.any (fun e => e.key == k) then keyCount acc k
        else (if E.key == k then E.count else 0) := by
  induction acc with
  | nil =>
      simp only [List.nil_append, List.any_nil, Bool.false_eq_true, if_false]
      rfl
  | cons e es ih =>
      simp only [List.cons_append, List.any_cons]
      unfold keyCount
      by_cases hek : (e.key == k) = true
      · simp [hek]
      · have hekf : (e.key == k) = false := by
          rwa [Bool.not_eq_true] at hek
        simp only [hekf, Bool.false_eq_true, if_false, Bool.false_or]
        exact ih

theorem lbStep_keyCount (acc : List LBEntry) (row : Option (List Char))
    (k : List Char) :
    keyCount (lbStep acc row) k
      = keyCount acc k + (if rowMatches k row then 1 else 0) := by
  cases row with
  | none => simp [lbStep, rowMatches]
  | some t =>
      by_cases ht : t = []
      · subst ht
        simp [lbStep, rowMatches]
      · have hmt : rowMatches k (some t) = (canonicalTag t == k) := by
          show (!(t == []) && canonicalTag t == k) = (canonicalTag t == k)
          have h1 : (t == []) = false := by
            rw [beq_eq_false_iff_ne]
            exact ht
          rw [h1]
          rfl
        show keyCount (if t = [] then acc
            else if acc.any (fun e => e.key == canonicalTag t) then
              acc.map (fun e => if e.key == canonicalTag t
                then { e with tag := t, count := e.count + 1 } else e)
            else acc ++ [⟨canonicalTag t, t, 1, acc.length⟩]) k
          = keyCount acc k + (if rowMatches k (some t) then 1 else 0)
        rw [if_neg ht, hmt]
        by_cases hany : (acc.any (fun e => e.key == canonicalTag t)) = true
        · rw [if_pos hany, keyCount_map_bump]
          by_cases hKk : (canonicalTag t == k) = true
          · have hkeq : canonicalTag t = k := by
              rwa [beq_iff_eq] at hKk
            have hany2 : acc.any (fun e => e.key == k) = true := by
              rw [← hkeq]
              exact hany
            rw [hKk, hany2]
            rfl
          · have hKkf : (canonicalTag t == k) = false := by
              rwa [Bool.not_eq_true] at hKk
            rw [hKkf]
            simp
        · rw [if_neg hany, keyCount_append_single]
          by_cases hKk : (canonicalTag t == k) = true
          · have hkeq : canonicalTag t = k := by
              rwa [beq_iff_eq] at hKk
            have hany2 : acc.any (fun e => e.key == k) = false := by
              rw [← hkeq]
              rwa [Bool.not_eq_true] at hany
            rw [keyCount_eq_zero_of_not_any acc k hany2]
            simp [hany2, hKk]
          · have hKkf : (canonicalTag t == k) = false := by
              rwa [Bool.not_eq_true] at hKk
            by_cases hany2 : acc.any (fun e => e.key == k) = true
            · simp [hany2, hKkf]
            · have hany2f : acc.any (fun e => e.key == k) = false := by
                rwa [Bool.not_eq_true] at hany2
              rw [keyCount_eq_zero_of_not_any acc k hany2f]
              simp [hany2f, hKkf]

theorem lbStep_some_eq (acc : List LBEntry) (t : List Char) :
    lbStep acc (some t) = if t = [] then acc
      else if acc.any (fun e => e.key == canonicalTag t) then
        acc.map (fun e => if e.key == canonicalTag t
          then { e with tag := t, count := e.count + 1 } else e)
      else acc ++ [⟨canonicalTag t, t, 1, acc.length⟩] := rfl

theorem lbStep_shape (acc : List LBEntry) (row : Option (List Char)) :
    ((lbStep acc row).map (fun e => e.key) = acc.map (fun e => e.key) ∧
     (lbStep acc row).map (fun e => e.idx) = acc.map (fun e => e.idx)) ∨
    (∃ K tg, lbStep acc row = acc ++ [⟨K, tg, 1, acc.length⟩] ∧
      acc.any (fun e => e.key == K) = false) := by
  cases row with
  | none => exact Or.inl ⟨rfl, rfl⟩
  | some t =>
      rw [lbStep_some_eq]
      by_cases ht : t = []
      · rw [if_pos ht]
        exact Or.inl ⟨rfl, rfl⟩
      · rw [if_neg ht]
        by_cases hany : acc.any (fun e => e.key == canonicalTag t) = true
        · rw [if_pos hany]
          left
          constructor
          · rw [List.map_map]
            apply List.map_congr_left
            intro e _
            by_cases he : e.key = canonicalTag t
            · simp [he]
            · simp [he]
          · rw [List.map_map]
            apply List.map_congr_left
            intro e _
            by_cases he : e.key = canonicalTag t
            · simp [he]
            · simp [he]
        · rw [if_neg hany]
          right
          refine ⟨canonicalTag t, t, rfl, ?_⟩
          rwa [Bool.not_eq_true] at hany

theorem not_mem_keys_of_any_false (acc : List LBEntry) (K : List Char)
    (h : acc.any (fun e => e.key == K) = false) :
    K ∉ acc.map (fun e => e.key) := by
  intro hmem
  rw [List.mem_map] at hmem
  obtain ⟨e, he, hek⟩ := hmem
  rw [List.any_eq_false] at h
  have h2 := h e he
  rw [Bool.not_eq_true, beq_eq_false_iff_ne] at h2
  exact h2 hek

theorem map_length_eq {α β : Type} (f : α → β) (l₁ l₂ : List α)
    (h : l₁.map f = l₂.map f) : l₁.length = l₂.length := by
  have := congrArg List.length h
  rwa [List.length_map, List.length_map] at this

theorem lbStep_idx_range (acc : List LBEntry) (row : Option (List Char))
    (h : acc.map (fun e => e.idx) = List.range acc.length) :
    (lbStep acc row).map (fun e => e.idx)
      = List.range (lbStep acc row).length := by
  rcases lbStep_shape acc row with ⟨hk, hi⟩ | ⟨K, tg, heq, _⟩
  · rw [hi, h]
    have hlen : (lbStep acc row).length = acc.length := map_length_eq _ _ _ hi
    rw [hlen]
  · rw [heq, List.map_append, h, List.length_append]
    simp [List.range_succ]

theorem lbStep_keys_nodup (acc : List LBEntry) (row : Option (List Char))
    (h : (acc.map (fun e => e.key)).Nodup) :
    ((lbStep acc row).map (fun e => e.key)).Nodup := by
  rcases lbStep_shape acc row with ⟨hk, _⟩ | ⟨K, tg, heq, hany⟩
  · rw [hk]
    exact h
  · rw [heq, List.map_append]
    rw [List.nodup_append]
    refine ⟨h, by simp, ?_⟩
    intro a ha hb
    simp only [List.map_cons, List.map_nil, List.mem_singleton] at hb
    subst hb
    exact not_mem_keys_of_any_false acc _ hany ha

theorem keyCount_self (acc : List LBEntry)
    (hnd : (acc.map (fun e => e.key)).Nodup) :
    ∀ e ∈ acc, keyCount acc e.key = e.count := by
  induction acc with
  | nil => intro e he; cases he
  | cons a es ih =>
      rw [List.map_cons, List.nodup_cons] at hnd
      intro e he
      rcases List.mem_cons.mp he with rfl | hes
      · unfold keyCount
        rw [beq_self_eq_true]
        rfl
      · have hne : (a.key == e.key) = false := by
          rw [beq_eq_false_iff_ne]
          intro hkk
          apply hnd.1
          rw [List.mem_map]
          exact ⟨e, hes, hkk.symm⟩
        unfold keyCount
        rw [hne]
        exact ih hnd.2 e hes

theorem lbTally_main (rows : List (Option (List Char))) :
    ∀ acc : List LBEntry,
      acc.map (fun e => e.idx) = List.range acc.length →
      ((acc.map (fun e => e.key)).Nodup) →
      ((rows.foldl lbStep acc).map (fun e => e.idx)
          = List.range (rows.foldl lbStep acc).length ∧
       ((rows.foldl lbStep acc).map (fun e => e.key)).Nodup ∧
       ∀ e ∈ rows.foldl lbStep acc,
         e.count = keyCount acc e.key + rows.countP (rowMatches e.key)) := by
  induction rows with
  | nil =>
      intro acc hidx hnd
      refine ⟨hidx, hnd, ?_⟩
      intro e he
      rw [keyCount_self acc hnd e he]
      simp
  | cons r rows ih =>
      intro acc hidx hnd
      rw [List.foldl_cons]
      have hidx1 := lbStep_idx_range acc r hidx
      have hnd1 := lbStep_keys_nodup acc r hnd
      obtain ⟨h1, h2, h3⟩ := ih (lbStep acc r) hidx1 hnd1
      refine ⟨h1, h2, ?_⟩
      intro e he
      rw [h3 e he, lbStep_keyCount, List.countP_cons]
      omega

theorem lbLimit_bounds (p : Option Int) : 1 ≤ lbLimit p ∧ lbLimit p ≤ 25 := by
  unfold lbLimit
  have h1 : 1 ≤ max 1 (min (match p with | none => 10 | some 0 => 10 | some v => v) 25) :=
    le_max_left _ _
  have h2 : max 1 (min (match p with | none => 10 | some 0 => 10 | some v => v) 25) ≤ 25 :=
    max_le (by norm_num) (min_le_right _ _)
  omega

/-- C9: for every input sample the leaderboard output is sorted descending
by report count, identities grouped by canonical lowercase tag (each output
entry's count is the number of sample rows whose lowercased tag equals the
entry's key, with one entry per canonical tag), ties broken in the stable
first-seen order (entries carry their first-insertion index, the indices
enumerate 0,1,2,... in first-seen order, and equal counts are ordered by
strictly increasing index), truncated to the caller-supplied limit clamped
to [1, 25]; the aggregation is a pure function of the sample, so re-running
it yields an identical ranking. -/
theorem c9_leaderboard :
    ∀ (rows : List (Option (List Char))) (p : Option Int),
      (leaderboard rows p).Pairwise (fun a b =>
        b.count ≤ a.count ∧ (a.count = b.count → a.idx < b.idx)) ∧
      (lbTally rows).map (fun e => e.idx) = List.range (lbTally rows).length ∧
      ((lbTally rows).map (fun e => e.key)).Nodup ∧
      (∀ e ∈ leaderboard rows p,
        e ∈ lbTally rows ∧ e.count = rows.countP (rowMatches e.key)) ∧
      (leaderboard rows p).length ≤ lbLimit p ∧
      1 ≤ lbLimit p ∧ lbLimit p ≤ 25 := by
  intro rows p
  obtain ⟨hidx0, hnd0, hcount0⟩ := lbTally_main rows [] rfl List.nodup_nil
  have hidx : (lbTally rows).map (fun e => e.idx)
      = List.range (lbTally rows).length := hidx0
  have hnd : ((lbTally rows).map (fun e => e.key)).Nodup := hnd0
  have hcount : ∀ e ∈ lbTally rows,
      e.count = keyCount [] e.key + List.countP (rowMatches e.key) rows := hcount0
  have hperm := List.perm_insertionSort lbRel (lbTally rows)
  have hsorted := List.sorted_insertionSort lbRel (lbTally rows)
  have htake : (leaderboard rows p).Sublist
      (List.insertionSort lbRel (lbTally rows)) := List.take_sublist _ _
  have hidxnodup : ((lbTally rows).map (fun e => e.idx)).Nodup := by
    rw [hidx]
    exact List.nodup_range _
  have hsortidx : ((List.insertionSort lbRel (lbTally rows)).map
      (fun e => e.idx)).Nodup := ((hperm.map _).nodup_iff).mpr hidxnodup
  have hlbidx : ((leaderboard rows p).map (fun e => e.idx)).Nodup :=
    List.Nodup.sublist (htake.map _) hsortidx
  refine ⟨?_, hidx, hnd, ?_, ?_, (lbLimit_bounds p).1, (lbLimit_bounds p).2⟩
  · have hp1 : (leaderboard rows p).Pairwise lbRel :=
      List.Pairwise.sublist htake hsorted
    have hp2 : (leaderboard rows p).Pairwise (fun a b => a.idx ≠ b.idx) :=
      List.pairwise_map.mp hlbidx
    refine (hp1.and hp2).imp ?_
    intro a b h
    obtain ⟨h1, h2⟩ := h
    unfold lbRel at h1
    omega
  · intro e he
    have hmem1 : e ∈ List.insertionSort lbRel (lbTally rows) :=
      List.Sublist.mem he htake
    have hmem2 : e ∈ lbTally rows := hperm.mem_iff.mp hmem1
    refine ⟨hmem2, ?_⟩
    have hc := hcount e hmem2
    unfold keyCount at hc
    simpa using hc
  · unfold leaderboard
    rw [List.length_take]
    exact min_le_left _ _

theorem c9_witness :
    ((⟨"x#1111".data, "x#1111".data, 2, 0⟩ : LBEntry) ∈
        leaderboard [some "x#1111".data, some "y#2222".data, some "x#1111".data]
          (some 10)) ∧
    ((⟨"x#1111".data, "x#1111".data, 2, 0⟩ : LBEntry) ∈
        lbTally [some "x#1111".data, some "y#2222".data, some "x#1111".data] ∧
      (⟨"x#1111".data, "x#1111".data, 2, 0⟩ : LBEntry).count
        = List.countP
            (rowMatches (⟨"x#1111".data, "x#1111".data, 2, 0⟩ : LBEntry).key)
            [some "x#1111".data, some "y#2222".data, some "x#1111".data]) :=
  ⟨by decide,
   (c9_leaderboard [some "x#1111".data, some "y#2222".data, some "x#1111".data]
       (some 10)).2.2.2.1 _ (by decide)⟩

/-! ## Comment listing — GET /api/raider/:slug/comments (src/server.js:244-306) -/

/-- A `reports` row as selected by the comments endpoint (server.js:274-276):
the query filters only by `raider_id`; `reason` is carried unrestricted.
`upvotes`/`downvotes` are `none` when null/non-finite in the store. -/
structure CommentRow where
  id : Nat
  comments : Option String
  reason : String
  created_at : Int
  evidence_urls : Option (List String)
  upvotes : Option Int
  downvotes : Option Int
  reporter_label : Option String
deriving DecidableEq, Repr

/-- The mapped comment entry (server.js:288-300). -/
structure CommentView where
  id : Nat
  comment : Option String
  reason : String
  created_at : Int
  evidence_urls : List String
  upvotes : Int
  downvotes : Int
  score : Int
  reporter_label : Option String
deriving DecidableEq, Repr

/-- `REASON_LABELS[r.reason] || r.reason` (server.js:28-35, 291). -/
def reasonLabel (reason : String) : String :=
  if reason = "betrayal" then "Betrayal"
  else if reason = "rat-tactics" then "Rat Tactics"
  else if reason = "afk-griefing" then "AFK / Griefing"
  else if reason = "verbal-abuse" then "Verbal Abuse / Hate Speech"
  else if reason = "cheating-exploiting" then "Cheating / Exploiting"
  else if reason = "offensive-name" then "Offensive or Innaproriate Name"
  else reason

/-- The per-row mapping (server.js:288-300): `Number.isFinite` defaulting of
the vote counters is the `Option.getD 0`. -/
def commentView (r : CommentRow) : CommentView :=
  { id := r.id
    comment := r.comments
    reason := reasonLabel r.reason
    created_at := r.created_at
    evidence_urls := r.evidence_urls.getD []
    upvotes := r.upvotes.getD 0
    downvotes := r.downvotes.getD 0
    score := r.upvotes.getD 0 - r.downvotes.getD 0
    reporter_label := r.reporter_label }

/-- The store sort key (server.js:278-281): `created_at` when
`sort=recent`, otherwise `upvotes`. -/
def commentKey (recent : Bool) (r : CommentRow) : Option Int :=
  if recent then some r.created_at else r.upvotes

/-- Descending order with nulls last, as requested by
`order(col, {ascending: false, nullsFirst: false})`. -/
def keyBefore : Option Int → Option Int → Prop
  | some x, some y => y ≤ x
  | some _, none => True
  | none, some _ => False
  | none, none => True

instance : ∀ a b, Decidable (keyBefore a b) := fun a b => by
  cases a <;> cases b <;> unfold keyBefore <;> infer_instance

/-- Row order used by the comments query. -/
def commentRel (recent : Bool) (a b : CommentRow) : Prop :=
  keyBefore (commentKey recent a) (commentKey recent b)

instance (recent : Bool) : DecidableRel (commentRel recent) := fun a b => by
  unfold commentRel
  infer_instance

/-- `Math.max(1, Math.min(parseInt(req.query.limit, 10) || 200, 500))`
(server.js:251): `none` models NaN and 0 is falsy, so `|| 200` applies. -/
def commentLimit (p : Option Int) : Nat :=
  (max 1 (min (match p with | none => 200 | some 0 => 200 | some v => v) 500)).toNat

/-- GET /api/raider/:slug/comments (server.js:274-302): the identity's
report rows sorted by the key (descending, one order consistent with the
store's unspecified tie order), truncated to the clamped limit, mapped to
the comment view. -/
def listComments (rs : List CommentRow) (recent : Bool) (p : Option Int) :
    List CommentView :=
  ((List.insertionSort (commentRel recent) rs).take (commentLimit p)).map commentView

theorem commentLimit_bounds (p : Option Int) :
    1 ≤ commentLimit p ∧ commentLimit p ≤ 500 := by
  unfold commentLimit
  have h1 : 1 ≤ max 1
      (min (match p with | none => 200 | some 0 => 200 | some v => v) 500) :=
    le_max_left _ _
  have h2 : max 1
      (min (match p with | none => 200 | some 0 => 200 | some v => v) 500) ≤ 500 :=
    max_le (by norm_num) (min_le_right _ _)
  omega

/-- C10 fails as stated: the comment listing truncates to the caller-supplied
limit (clamped to [1, 500]), so with limit 1 an identity with two report rows
gets only one of them back — not every report row of the identity. -/
theorem c10_counterexample :
    (listComments [⟨1, some "a", "comment", 10, none, some 5, some 0, none⟩,
        ⟨2, none, "betrayal", 20, none, some 3, some 0, none⟩] false (some 1)).length
      = 1 ∧
    ([⟨1, some "a", "comment", 10, none, some 5, some 0, none⟩,
      ⟨2, none, "betrayal", 20, none, some 3, some 0, none⟩]
        : List CommentRow).length = 2 ∧
    commentView ⟨2, none, "betrayal", 20, none, some 3, some 0, none⟩ ∉
      listComments [⟨1, some "a", "comment", 10, none, some 5, some 0, none⟩,
        ⟨2, none, "betrayal", 20, none, some 3, some 0, none⟩] false (some 1) := by
  refine ⟨by decide, by decide, by decide⟩

/-- C10 amended: the comment listing never restricts by reason — it returns
the identity's report rows of every reason category (non-comment reports
appear alongside comment-sentinel rows), but only the first `limit` rows in
the chosen sort order, with the limit clamped to [1, 500] (default 200):
the output length is `min limit (number of rows)`, and whenever the
identity has at most `limit` rows, every row — regardless of reason —
appears in the feed. -/
theorem c10_amended_no_reason_filter :
    ∀ (rs : List CommentRow) (recent : Bool) (p : Option Int),
      (listComments rs recent p).length = min (commentLimit p) rs.length ∧
      1 ≤ commentLimit p ∧ commentLimit p ≤ 500 ∧
      (rs.length ≤ commentLimit p →
        ∀ r ∈ rs, commentView r ∈ listComments rs recent p) := by
  intro rs recent p
  have hperm := List.perm_insertionSort (commentRel recent) rs
  refine ⟨?_, (commentLimit_bounds p).1, (commentLimit_bounds p).2, ?_⟩
  · unfold listComments
    rw [List.length_map, List.length_take, hperm.length_eq]
  · intro hle r hr
    unfold listComments
    have hmem : r ∈ List.insertionSort (commentRel recent) rs :=
      hperm.mem_iff.mpr hr
    have htakeall : (List.insertionSort (commentRel recent) rs).take
        (commentLimit p) = List.insertionSort (commentRel recent) rs := by
      apply List.take_of_length_le
      rw [hperm.length_eq]
      exact hle
    rw [htakeall]
    exact List.mem_map_of_mem commentView hmem

theorem c10_witness :
    (([⟨2, none, "betrayal", 20, none, some 3, some 0, none⟩]
        : List CommentRow).length ≤ commentLimit none) ∧
    commentView ⟨2, none, "betrayal", 20, none, some 3, some 0, none⟩ ∈
      listComments [⟨2, none, "betrayal", 20, none, some 3, some 0, none⟩]
        false none :=
  ⟨by decide,
   (c10_amended_no_reason_filter
       [⟨2, none, "betrayal", 20, none, some 3, some 0, none⟩] false none).2.2.2
     (by decide) _ (by decide)⟩
